import Mathlib

/-!
Verification of the core algorithms of a multi-user tagging library:
the tag-string parser, the match-any / match-all tag-set matcher,
the popularity recomputation, and the tag-update operation.

Machine integers are modelled as `Nat` (all quantities involved are
non-negative database counts and identifiers); fallible operations
return `Option` or `Except`.
-/

/-! ### Tag-input parser

Modelled from the spec: the function `parse_tag_input` itself is not part
of the source tree (only its doctests are); the definitions below follow
the spec's tokenization rules (precedence of whitespace / comma / quote
splitting, trimming, discarding of empty tokens, deduplication, and
alphabetical sorting), disambiguated where needed by the doctests shipped
with the source.
-/

/-- Whitespace as used by the parser's trimming rule. -/
def isWS (c : Char) : Bool :=
  c == ' ' || c == '\t' || c == '\n' || c == '\r'

/-- Split a character list at every occurrence of the delimiter,
keeping empty segments (Python's `str.split(delim)`). -/
def pySplit (delim : Char) : List Char → List (List Char)
  | [] => [[]]
  | c :: rest =>
    let r := pySplit delim rest
    if c == delim then [] :: r
    else (c :: r.headI) :: r.tail

/-- Remove leading and trailing whitespace (Python's `str.strip()`). -/
def pyStrip (l : List Char) : List Char :=
  ((l.dropWhile isWS).reverse.dropWhile isWS).reverse

/-- Split on a delimiter, trim each piece, and drop the empty pieces. -/
def split_strip (delim : Char) (l : List Char) : List (List Char) :=
  ((pySplit delim l).map pyStrip).filter (fun w => !w.isEmpty)

/-- Does the character occur in the list? -/
def hasChar (c : Char) (l : List Char) : Bool :=
  l.any (fun d => d == c)

/-- Lexicographic comparison of character lists by code point
(alphabetical order on tag names). -/
def lexLe : List Char → List Char → Bool
  | [], _ => true
  | _ :: _, [] => false
  | a :: as, b :: bs =>
    if a.toNat < b.toNat then true
    else if b.toNat < a.toNat then false
    else lexLe as bs

/-- The sorting relation on tag-name words. -/
def wordLe (a b : List Char) : Prop := lexLe a b = true

instance : DecidableRel wordLe := fun a b => by
  unfold wordLe; infer_instance

/-- Quote-aware scan of the input. Outside quotes, characters accumulate in
`buffer`; a double quote flushes the buffer into `tbs` (the chunks to be
split later) and starts collecting quoted text; a closing quote emits the
trimmed quoted text as one word. A comma seen outside quotes sets the
loose-comma flag `slc`; an unterminated quote's text is treated as an
unquoted chunk, setting the flag if it contains a comma.
Returns (quoted words, chunks to be split, loose-comma flag). -/
def scanChars : List Char → Bool → List Char → List (List Char) →
    List (List Char) → Bool → List (List Char) × List (List Char) × Bool
  | [], inQuote, buffer, words, tbs, slc =>
    if inQuote then
      let slc := slc || hasChar ',' buffer
      if buffer.isEmpty then (words, tbs, slc) else (words, tbs ++ [buffer], slc)
    else
      if buffer.isEmpty then (words, tbs, slc) else (words, tbs ++ [buffer], slc)
  | c :: rest, inQuote, buffer, words, tbs, slc =>
    if inQuote then
      if c == '"' then
        let w := pyStrip buffer
        let words := if w.isEmpty then words else words ++ [w]
        scanChars rest false [] words tbs slc
      else
        scanChars rest true (buffer ++ [c]) words tbs slc
    else
      if c == '"' then
        let tbs := if buffer.isEmpty then tbs else tbs ++ [buffer]
        scanChars rest true [] words tbs slc
      else
        scanChars rest false (buffer ++ [c]) words tbs (slc || (c == ','))

/-- All candidate words produced by the quote-aware scan: the quoted words
plus the unquoted chunks split on comma (when a loose comma was seen)
or on space (otherwise). -/
def scanWords (l : List Char) : List (List Char) :=
  match scanChars l false [] [] [] false with
  | (words, tbs, slc) =>
    words ++ tbs.flatMap (split_strip (if slc then ',' else ' '))

/-- Final normalization: collapse duplicates and sort alphabetically. -/
def finalize (words : List (List Char)) : List (List Char) :=
  List.insertionSort wordLe words.dedup

/-- Parse a tag-input character list: with neither comma nor quote present,
split on spaces; otherwise run the quote-aware scan. The result is
deduplicated and sorted. -/
def parseCore (l : List Char) : List (List Char) :=
  if l.isEmpty then []
  else if !hasChar ',' l && !hasChar '"' l then
    finalize (split_strip ' ' l)
  else
    finalize (scanWords l)

/-- Parse a tag input (`none` models an absent value) into the sorted,
deduplicated list of tag names. -/
def parse_tag_input : Option String → List String
  | none => []
  | some s => (parseCore s.data).map String.mk

/-- Python's `" ".join`, used to re-serialize a parsed tag list. -/
def joinSpace : List String → String
  | [] => ""
  | [w] => w
  | w :: ws => w ++ " " ++ joinSpace ws

/-- The alphabetical (code-point lexicographic) order on tag-name strings. -/
def strLe (a b : String) : Prop := wordLe a.data b.data

/-- Character-level space-join, the `data` image of `joinSpace`. -/
def charsJoin : List (List Char) → List Char
  | [] => []
  | [w] => w
  | w :: ws => w ++ ' ' :: charsJoin ws

/-! ### Data model

`Tag` and `TaggedItem` mirror the two model classes: a tag has a unique
name and a set of owners; a tagged item (association) links a tag to an
object of some content type, carries the owners who applied it, and the
derived `popular` flag. Owner sets are lists of owner ids; primary keys
and content types are natural numbers. -/

structure Tag where
  pk : Nat
  name : String
  owners : List Nat
deriving DecidableEq, Repr

structure TaggedItem where
  pk : Nat
  tag : Nat
  content_type : Nat
  object_id : Nat
  owners : List Nat
  popular : Bool
deriving DecidableEq, Repr

/-- The database state: the tag table, the tagged-item table, and the next
fresh primary key. -/
structure DB where
  tags : List Tag
  items : List TaggedItem
  nextPk : Nat
deriving DecidableEq, Repr

/-- Errors raised by the embedded code. -/
inductive PyErr where
  | typeError
deriving DecidableEq, Repr

/-- A Python value passed as a predicate: either a callable boolean
function over associations, or a non-callable object whose application
raises a type error. -/
inductive PyPred where
  | callable (f : TaggedItem → Bool)
  | notCallable

/-- Apply a predicate value; a non-callable raises. -/
def applyPred : PyPred → TaggedItem → Except PyErr Bool
  | .callable f, it => .ok (f it)
  | .notCallable, _ => .error .typeError

/-! ### Tag-set matcher (`TaggedItemManager`) -/

/-- The items of one tag (the reverse foreign-key `tag.items`). -/
def itemsOfTag (pool : List TaggedItem) (tpk : Nat) : List TaggedItem :=
  pool.filter (fun it => it.tag == tpk)

/-- Inner loop of `_get_matching_ids`: for each item of the tag, if its
object id is truthy (non-zero) apply the filter function and collect the
object id when it holds. The filter is applied only after the object-id
check, so a raising filter is not reached for zero object ids. -/
def runItems (ff : TaggedItem → Except PyErr Bool) :
    List TaggedItem → Except PyErr (List Nat)
  | [] => .ok []
  | it :: rest =>
    if it.object_id != 0 then
      match ff it with
      | .error e => .error e
      | .ok b =>
        match runItems ff rest with
        | .error e => .error e
        | .ok ids => .ok ((if b then [it.object_id] else []) ++ ids)
    else runItems ff rest

/-- `_get_matching_ids`: iterate the given tags and collect, in order, the
object ids of their matching items. -/
def get_matching_ids (pool : List TaggedItem) (tags : List Tag)
    (ff : TaggedItem → Except PyErr Bool) : Except PyErr (List Nat) :=
  match tags with
  | [] => .ok []
  | t :: ts =>
    match runItems ff (itemsOfTag pool t.pk) with
    | .error e => .error e
    | .ok ids =>
      match get_matching_ids pool ts ff with
      | .error e => .error e
      | .ok ids' => .ok (ids ++ ids')

/-- The filter function built by `match_any` / `match_all`: the default
checks the content type; a user-supplied predicate is wrapped in a lambda
conjoining it with the default (user predicate applied first). The
wrapping lambda is itself callable, so the `assert callable(...)` in
`_get_matching_ids` always passes. -/
def filterFunction (ctype : Nat) (userf : Option PyPred) :
    TaggedItem → Except PyErr Bool :=
  match userf with
  | none => fun it => .ok (it.content_type == ctype)
  | some p => fun it =>
    match applyPred p it with
    | .error e => .error e
    | .ok b => .ok (b && (it.content_type == ctype))

/-- Order-preserving deduplication of the collected ids. -/
def unique_from_iter (l : List Nat) : List Nat :=
  go l []
where
  go : List Nat → List Nat → List Nat
  | [], _ => []
  | x :: xs, seen =>
    if x ∈ seen then go xs seen else x :: go xs (x :: seen)

/-- `match_any`: the distinct object ids having some matching item. -/
def match_any (ctype : Nat) (pool : List TaggedItem) (tags : List Tag)
    (userf : Option PyPred) : Except PyErr (List Nat) :=
  match get_matching_ids pool tags (filterFunction ctype userf) with
  | .error e => .error e
  | .ok ids => .ok (unique_from_iter ids)

/-- `match_all`: the distinct object ids whose number of occurrences among
the collected ids equals the number of given tags. -/
def match_all (ctype : Nat) (pool : List TaggedItem) (tags : List Tag)
    (userf : Option PyPred) : Except PyErr (List Nat) :=
  match get_matching_ids pool tags (filterFunction ctype userf) with
  | .error e => .error e
  | .ok ids =>
    .ok ((unique_from_iter ids).filter (fun id => ids.count id == tags.length))

/-- The ids collected by `_get_matching_ids` for a callable filter,
written as a pure list computation. -/
def idsFor (ctype : Nat) (pool : List TaggedItem) (f : TaggedItem → Bool)
    (tags : List Tag) : List Nat :=
  tags.flatMap (fun t =>
    ((itemsOfTag pool t.pk).filter (fun it =>
      it.object_id != 0 && (f it && (it.content_type == ctype)))).map
      (fun it => it.object_id))

/-- The specification-side condition for one association to count as a
match for object id `oid`: its object type matches, the predicate holds,
its object id is `oid`, and (the amendment) the object id is non-zero. -/
def matchCond (ctype : Nat) (f : TaggedItem → Bool) (oid : Nat)
    (it : TaggedItem) : Bool :=
  (it.content_type == ctype) && f it && (it.object_id == oid) &&
    (it.object_id != 0)

/-- The specification-side occurrence count of an object id: one
occurrence per association whose tag is among the given tags and which
satisfies `matchCond`. -/
def claimOccurrences (ctype : Nat) (pool : List TaggedItem)
    (tags : List Tag) (f : TaggedItem → Bool) (oid : Nat) : Nat :=
  (pool.filter (fun it =>
    (tags.map (fun t => t.pk)).contains it.tag &&
      matchCond ctype f oid it)).length

/-! ### Popularity recomputation (`TaggedItem.refresh_popular`) -/

/-- The associations of one `(content_type, object_id)` pair. -/
def pairItems (ctype oid : Nat) (db : DB) : List TaggedItem :=
  db.items.filter (fun it => it.content_type == ctype && it.object_id == oid)

/-- The `avg` local of `refresh_popular`: total owner count over the
pair's associations, integer-divided by the association count
(the `tag_count`), floored at the configured minimum. -/
def pairAvg (minOwners ctype oid : Nat) (db : DB) : Nat :=
  let total_owners_count :=
    ((pairItems ctype oid db).map (fun it => it.owners.length)).sum
  let avg0 := total_owners_count / (pairItems ctype oid db).length
  if avg0 < minOwners then minOwners else avg0

/-- The `popular_ids` local of `refresh_popular`: the primary keys of the
pair's associations whose owner count strictly exceeds the average. -/
def popularPks (minOwners ctype oid : Nat) (db : DB) : List Nat :=
  ((pairItems ctype oid db).filter (fun it =>
    pairAvg minOwners ctype oid db < it.owners.length)).map (fun it => it.pk)

/-- `refresh_popular`: over the pair's associations, compute the average
owner count per association (integer division), floor it at the configured
minimum, and set each association's `popular` flag to whether its primary
key is among the popular ids (owner count strictly above the average).
Division by a zero association count raises, modelled as `none`. -/
def refresh_popular (minOwners : Nat) (ctype oid : Nat) (db : DB) : Option DB :=
  if (pairItems ctype oid db).length = 0 then none
  else
    some { db with items := db.items.map (fun it =>
      if it.content_type == ctype && it.object_id == oid then
        { it with popular := (popularPks minOwners ctype oid db).contains it.pk }
      else it) }

/-! ### Tag update (`TagManager.update_tags`) -/

/-- One step of the removal loop over the matching items: the owner is
removed from the item's owner set; if the owner set becomes empty the item
is deleted, otherwise it is saved, which re-triggers the popularity
recomputation for the object. -/
def stepRemove (minOwners ctype objpk owner : Nat) (db? : Option DB)
    (itpk : Nat) : Option DB :=
  match db? with
  | none => none
  | some db =>
    let db1 : DB := { db with items := db.items.map (fun it =>
      if it.pk == itpk then { it with owners := it.owners.erase owner } else it) }
    if db1.items.any (fun it => it.pk == itpk && it.owners.isEmpty) then
      some { db1 with items := db1.items.filter (fun it => !(it.pk == itpk)) }
    else
      refresh_popular minOwners ctype objpk db1

/-- One step of the addition loop over the parsed tag names: names already
current are skipped; otherwise the tag is fetched or created, the owner is
added to its owner set if absent, the association is fetched or created
(creation saves it, triggering a popularity refresh), and the owner is
added to the association before a final save and refresh. -/
def stepAdd (minOwners ctype objpk owner : Nat) (currentNames : List String)
    (db? : Option DB) (name : String) : Option DB :=
  match db? with
  | none => none
  | some db =>
    if currentNames.contains name then some db
    else
      let (db, tpk) : DB × Nat :=
        match db.tags.find? (fun t => t.name == name) with
        | some t => (db, t.pk)
        | none =>
          let db' : DB := { db with
            tags := db.tags ++ [⟨db.nextPk, name, []⟩]
            nextPk := db.nextPk + 1 }
          (db', db.nextPk)
      let db : DB :=
        if db.tags.any (fun t => t.pk == tpk && t.owners.contains owner) then db
        else { db with tags := db.tags.map (fun t =>
          if t.pk == tpk then { t with owners := t.owners ++ [owner] } else t) }
      let found := db.items.any (fun it =>
        it.tag == tpk && it.content_type == ctype && it.object_id == objpk)
      let db? : Option DB :=
        if found then some db
        else
          refresh_popular minOwners ctype objpk
            { db with
              items := db.items ++ [⟨db.nextPk, tpk, ctype, objpk, [], false⟩]
              nextPk := db.nextPk + 1 }
      match db? with
      | none => none
      | some db =>
        let db : DB := { db with items := db.items.map (fun it =>
          if it.tag == tpk && it.content_type == ctype && it.object_id == objpk then
            { it with owners := if it.owners.contains owner then it.owners
                                else it.owners ++ [owner] }
          else it) }
        refresh_popular minOwners ctype objpk db

/-- `update_tags`: parse the new tag-name string; remove the owner from the
tags that no longer apply (removing the owner from a tag's owner set when
the count of this owner's items whose object id equals the tag's primary
key is at most one, and removing the owner from each matching item,
deleting the item when its owner set empties); then add the owner to the
newly named tags and their associations. -/
def update_tags (minOwners : Nat) (forceLower : Bool) (ctype objpk : Nat)
    (tag_names : Option String) (owner : Nat) (db : DB) : Option DB :=
  let current_tags := db.tags.filter (fun t => db.items.any (fun it =>
    it.tag == t.pk && it.content_type == ctype && it.object_id == objpk &&
    it.owners.contains owner))
  let updated_tag_names :=
    let u := parse_tag_input tag_names
    if forceLower then u.map (fun s => s.toLower) else u
  let tags_for_removal :=
    current_tags.filter (fun t => !updated_tag_names.contains t.name)
  let db1 : Option DB :=
    if tags_for_removal.isEmpty then some db
    else
      let removalPks := tags_for_removal.map (fun t => t.pk)
      let removal_item_pks := (db.items.filter (fun it =>
        it.content_type == ctype && it.object_id == objpk &&
        removalPks.contains it.tag)).map (fun it => it.pk)
      let dbT : DB := { db with tags := db.tags.map (fun t =>
        if removalPks.contains t.pk &&
           ((db.items.filter (fun it =>
              it.owners.contains owner && it.content_type == ctype &&
              it.object_id == t.pk)).length ≤ 1 : Bool)
        then { t with owners := t.owners.erase owner } else t) }
      removal_item_pks.foldl (stepRemove minOwners ctype objpk owner) (some dbT)
  let current_tag_names := current_tags.map (fun t => t.name)
  updated_tag_names.foldl (stepAdd minOwners ctype objpk owner current_tag_names) db1

/-! ### Order lemmas for the sorting relation -/

theorem lexLe_total : ∀ a b : List Char, lexLe a b = true ∨ lexLe b a = true
  | [], _ => Or.inl rfl
  | _ :: _, [] => Or.inr rfl
  | a :: as, b :: bs => by
    simp only [lexLe]
    rcases Nat.lt_trichotomy a.toNat b.toNat with h | h | h
    · left; simp [h]
    · have h1 : ¬ a.toNat < b.toNat := by omega
      have h2 : ¬ b.toNat < a.toNat := by omega
      simp only [h1, h2, if_false]
      exact lexLe_total as bs
    · right; simp [h]

theorem lexLe_trans : ∀ a b c : List Char,
    lexLe a b = true → lexLe b c = true → lexLe a c = true
  | [], _, _ => by intro _ _; rfl
  | _ :: _, [], _ => by simp [lexLe]
  | _ :: _, _ :: _, [] => by intro _ h; simp [lexLe] at h
  | a :: as, b :: bs, c :: cs => by
    simp only [lexLe]
    intro h1 h2
    by_cases hac : a.toNat < c.toNat
    · simp [hac]
    · have hab : ¬ a.toNat < b.toNat ∨ ¬ b.toNat < c.toNat := by
        by_contra hcon
        push_neg at hcon
        omega
      by_cases h3 : a.toNat < b.toNat
      · -- then b.toNat ≥ c.toNat; from h2 b ≤ c lexicographically
        by_cases h4 : b.toNat < c.toNat
        · omega
        · by_cases h5 : c.toNat < b.toNat
          · simp [h4, h5] at h2
          · omega
      · by_cases h6 : b.toNat < a.toNat
        · simp [h3, h6] at h1
        · -- a.toNat = b.toNat
          have hab' : a.toNat = b.toNat := by omega
          by_cases h4 : b.toNat < c.toNat
          · omega
          · by_cases h5 : c.toNat < b.toNat
            · simp [h4, h5] at h2
            · have hca : ¬ c.toNat < a.toNat := by omega
              simp only [h3, h6, if_false] at h1
              simp only [h4, h5, if_false] at h2
              simp only [hac, hca, if_false]
              exact lexLe_trans as bs cs h1 h2


/-! ### Parser normalization lemmas -/

theorem nodup_finalize (ws : List (List Char)) : (finalize ws).Nodup :=
  ((List.perm_insertionSort wordLe ws.dedup).symm).nodup (List.nodup_dedup ws)

theorem sorted_finalize (ws : List (List Char)) :
    List.Sorted wordLe (finalize ws) :=
  @List.sorted_insertionSort _ wordLe _ ⟨fun a b => lexLe_total a b⟩
    ⟨fun a b c h1 h2 => lexLe_trans a b c h1 h2⟩ ws.dedup

theorem mem_finalize {w : List Char} {ws : List (List Char)} :
    w ∈ finalize ws ↔ w ∈ ws := by
  unfold finalize
  rw [List.mem_insertionSort, List.mem_dedup]

theorem nodup_parseCore (l : List Char) : (parseCore l).Nodup := by
  unfold parseCore
  split_ifs with h1 h2
  · exact List.nodup_nil
  · exact nodup_finalize _
  · exact nodup_finalize _

theorem sorted_parseCore (l : List Char) : List.Sorted wordLe (parseCore l) := by
  unfold parseCore
  split_ifs with h1 h2
  · exact List.sorted_nil
  · exact sorted_finalize _
  · exact sorted_finalize _

theorem strMk_injective : Function.Injective String.mk := by
  intro a b h
  exact congrArg String.data h

theorem nodup_parse (s : Option String) : (parse_tag_input s).Nodup := by
  cases s with
  | none => exact List.nodup_nil
  | some s => exact (nodup_parseCore s.data).map strMk_injective

theorem sorted_parse (s : Option String) :
    List.Sorted strLe (parse_tag_input s) := by
  cases s with
  | none => exact List.sorted_nil
  | some s =>
    exact List.Pairwise.map String.mk (fun a b h => h) (sorted_parseCore s.data)

/-- C6: for every input (present or absent), the parser's output is a
duplicate-free list of tag names sorted alphabetically (code-point
lexicographic order), and on the two sample inputs it returns exactly the
sorted, deduplicated tag lists. -/
theorem parse_returns_sorted_distinct :
    (∀ s : Option String, (parse_tag_input s).Nodup ∧
      List.Sorted strLe (parse_tag_input s)) ∧
    parse_tag_input (some "one two three") = ["one", "three", "two"] ∧
    parse_tag_input (some "one one two two") = ["one", "two"] :=
  ⟨fun s => ⟨nodup_parse s, sorted_parse s⟩, by decide, by decide⟩

/-! ### Lemmas on whitespace-only input -/

theorem pyStrip_eq_nil {l : List Char} (h : ∀ c ∈ l, isWS c = true) :
    pyStrip l = [] := by
  unfold pyStrip
  have h1 : l.dropWhile isWS = [] := List.dropWhile_eq_nil_iff.mpr h
  rw [h1]
  rfl

theorem pySplit_ne_nil (d : Char) : ∀ l : List Char, pySplit d l ≠ []
  | [] => by simp [pySplit]
  | c :: rest => by
    simp only [pySplit]
    split_ifs <;> simp

theorem mem_of_mem_pySplit {d : Char} :
    ∀ {l seg : List Char}, seg ∈ pySplit d l → ∀ c ∈ seg, c ∈ l ∧ ¬(c == d)
  | [], seg => by
    intro hseg c hc
    simp [pySplit] at hseg
    subst hseg
    simp at hc
  | x :: rest, seg => by
    intro hseg c hc
    simp only [pySplit] at hseg
    split_ifs at hseg with hx
    · rcases List.mem_cons.mp hseg with h | h
      · subst h; simp at hc
      · have := mem_of_mem_pySplit h c hc
        exact ⟨List.mem_cons_of_mem _ this.1, this.2⟩
    · rcases List.mem_cons.mp hseg with h | h
      · subst h
        rcases List.mem_cons.mp hc with h' | h'
        · subst h'
          exact ⟨List.mem_cons_self _ _, by simpa using hx⟩
        · have hne := pySplit_ne_nil d rest
          have hmem : (pySplit d rest).headI ∈ pySplit d rest := by
            cases hr : pySplit d rest with
            | nil => exact absurd hr hne
            | cons s ss => simp
          have := mem_of_mem_pySplit hmem c h'
          exact ⟨List.mem_cons_of_mem _ this.1, this.2⟩
      · have hmem : seg ∈ pySplit d rest := List.mem_of_mem_tail h
        have := mem_of_mem_pySplit hmem c hc
        exact ⟨List.mem_cons_of_mem _ this.1, this.2⟩

theorem split_strip_eq_nil {d : Char} {l : List Char}
    (h : ∀ c ∈ l, isWS c = true ∨ c = d) : split_strip d l = [] := by
  unfold split_strip
  rw [List.filter_eq_nil_iff]
  intro w hw
  rcases List.mem_map.mp hw with ⟨seg, hseg, rfl⟩
  have hws : ∀ c ∈ seg, isWS c = true := by
    intro c hc
    have hm := mem_of_mem_pySplit hseg c hc
    rcases h c hm.1 with hc' | hc'
    · exact hc'
    · exact absurd (by simp [hc']) hm.2
  rw [pyStrip_eq_nil hws]
  simp

theorem scan_no_quote :
    ∀ (cs buf : List Char) (words tbs : List (List Char)) (slc : Bool),
    hasChar '"' cs = false →
    scanChars cs false buf words tbs slc =
      (words, tbs ++ (if (buf ++ cs).isEmpty then [] else [buf ++ cs]),
       slc || hasChar ',' cs)
  | [], buf, words, tbs, slc => by
    intro _
    cases buf <;> simp [scanChars, hasChar]
  | c :: rest, buf, words, tbs, slc => by
    intro h
    have h' : ((c == '"') || rest.any (fun d => d == '"')) = false := h
    have h1 := (Bool.or_eq_false_iff.mp h').1
    have h2 : hasChar '"' rest = false := (Bool.or_eq_false_iff.mp h').2
    simp only [scanChars, h1, Bool.false_eq_true, if_false]
    rw [scan_no_quote rest (buf ++ [c]) words tbs (slc || (c == ',')) h2]
    simp [List.append_assoc, Bool.or_assoc, hasChar]

theorem isWS_ne_comma {c : Char} (h : isWS c = true) : (c == ',') = false := by
  simp only [isWS, Bool.or_eq_true, beq_iff_eq] at h
  rcases h with ((h | h) | h) | h <;> subst h <;> decide

theorem isWS_ne_quote {c : Char} (h : isWS c = true) : (c == '"') = false := by
  simp only [isWS, Bool.or_eq_true, beq_iff_eq] at h
  rcases h with ((h | h) | h) | h <;> subst h <;> decide

theorem scan_wsq :
    ∀ (cs : List Char) (q : Bool) (buf : List Char) (tbs : List (List Char)),
    (∀ c ∈ cs, isWS c = true ∨ c = '"') →
    (∀ c ∈ buf, isWS c = true) →
    (∀ t ∈ tbs, ∀ c ∈ t, isWS c = true) →
    (scanChars cs q buf [] tbs false).1 = [] ∧
    (∀ t ∈ (scanChars cs q buf [] tbs false).2.1, ∀ c ∈ t, isWS c = true) ∧
    (scanChars cs q buf [] tbs false).2.2 = false := by
  intro cs
  induction cs with
  | nil =>
    intro q buf tbs _ hbuf htbs
    have hb : hasChar ',' buf = false := by
      unfold hasChar
      rw [List.any_eq_false]
      intro c hc
      simp [isWS_ne_comma (hbuf c hc)]
    have htbs' : ∀ t ∈ tbs ++ [buf], ∀ c ∈ t, isWS c = true := by
      intro t ht
      rcases List.mem_append.mp ht with ht | ht
      · exact htbs t ht
      · simp only [List.mem_singleton] at ht
        subst ht
        exact hbuf
    cases q <;> simp only [scanChars, hb, Bool.or_false, Bool.false_or,
      if_true, if_false, Bool.false_eq_true, ite_true, ite_false] <;>
      by_cases hbe : buf.isEmpty <;> simp only [hbe, ite_true, ite_false] <;>
      exact ⟨by simp, by first | exact htbs | exact htbs', by simp⟩
  | cons c rest ih =>
    intro q buf tbs hcs hbuf htbs
    have hc := hcs c (List.mem_cons_self _ _)
    have hrest : ∀ c ∈ rest, isWS c = true ∨ c = '"' := fun x hx =>
      hcs x (List.mem_cons_of_mem _ hx)
    cases q with
    | true =>
      by_cases hq : (c == '"') = true
      · have hstrip : pyStrip buf = [] := pyStrip_eq_nil hbuf
        simp only [scanChars, hq, if_true, ite_true, hstrip, List.isEmpty_nil]
        exact ih false [] tbs hrest (by intro x hx; simp at hx) htbs
      · have hw : isWS c = true := by
          rcases hc with hc | hc
          · exact hc
          · subst hc; simp at hq
        have hbuf' : ∀ x ∈ buf ++ [c], isWS x = true := by
          intro x hx
          rcases List.mem_append.mp hx with hx | hx
          · exact hbuf x hx
          · simp only [List.mem_singleton] at hx
            subst hx; exact hw
        simp only [scanChars, hq, if_false, Bool.false_eq_true, ite_false, if_true]
        exact ih true (buf ++ [c]) tbs hrest hbuf' htbs
    | false =>
      by_cases hq : (c == '"') = true
      · by_cases hbe : buf.isEmpty
        · simp only [scanChars, hq, hbe, if_true, ite_true, if_false,
            Bool.false_eq_true, ite_false]
          exact ih true [] tbs hrest (by intro x hx; simp at hx) htbs
        · simp only [scanChars, hq, hbe, if_true, ite_true, if_false,
            Bool.false_eq_true, ite_false]
          have htbs' : ∀ t ∈ tbs ++ [buf], ∀ x ∈ t, isWS x = true := by
            intro t ht
            rcases List.mem_append.mp ht with ht | ht
            · exact htbs t ht
            · simp only [List.mem_singleton] at ht
              subst ht; exact hbuf
          exact ih true [] (tbs ++ [buf]) hrest (by intro x hx; simp at hx) htbs'
      · have hw : isWS c = true := by
          rcases hc with hc | hc
          · exact hc
          · subst hc; simp at hq
        have hcm : (c == ',') = false := isWS_ne_comma hw
        have hbuf' : ∀ x ∈ buf ++ [c], isWS x = true := by
          intro x hx
          rcases List.mem_append.mp hx with hx | hx
          · exact hbuf x hx
          · simp only [List.mem_singleton] at hx
            subst hx; exact hw
        simp only [scanChars, hq, hcm, if_false, Bool.false_eq_true, ite_false,
          Bool.or_false]
        exact ih false (buf ++ [c]) tbs hrest hbuf' htbs

theorem finalize_nil : finalize [] = [] := rfl

theorem parse_ws_comma (s : String)
    (h : ∀ c ∈ s.data, isWS c = true ∨ c = ',') :
    parse_tag_input (some s) = [] := by
  have hcore : parseCore s.data = [] := by
    unfold parseCore
    by_cases he : s.data.isEmpty
    · simp [he]
    · have hq : hasChar '"' s.data = false := by
        unfold hasChar
        rw [List.any_eq_false]
        intro c hc
        rcases h c hc with hc' | hc'
        · simp [isWS_ne_quote hc']
        · subst hc'; decide
      by_cases hcm : hasChar ',' s.data = true
      · simp only [he, ite_false, hcm, hq, Bool.not_true, Bool.not_false,
          Bool.false_and, Bool.false_eq_true, if_false]
        have hscan := scan_no_quote s.data [] [] [] false hq
        unfold scanWords
        rw [hscan]
        have he' : s.data.isEmpty = false := by simpa using he
        simp only [List.nil_append, he', Bool.false_eq_true, if_false, hcm,
          Bool.false_or, if_true, List.flatMap_cons, List.flatMap_nil,
          List.append_nil]
        rw [split_strip_eq_nil h]
        exact finalize_nil
      · have hcm' : hasChar ',' s.data = false := by
          simpa using hcm
        have hws : ∀ c ∈ s.data, isWS c = true := by
          intro c hc
          rcases h c hc with hc' | hc'
          · exact hc'
          · exfalso
            apply hcm
            unfold hasChar
            rw [List.any_eq_true]
            exact ⟨c, hc, by simp [hc']⟩
        simp only [he, ite_false, hcm', hq, Bool.not_false, Bool.true_and,
          if_true, Bool.false_eq_true]
        rw [split_strip_eq_nil (fun c hc => Or.inl (hws c hc))]
        exact finalize_nil
  show (parseCore s.data).map String.mk = []
  rw [hcore]
  rfl

theorem parse_ws_quote (s : String)
    (h : ∀ c ∈ s.data, isWS c = true ∨ c = '"') :
    parse_tag_input (some s) = [] := by
  have hcore : parseCore s.data = [] := by
    unfold parseCore
    by_cases he : s.data.isEmpty
    · simp [he]
    · have hcm : hasChar ',' s.data = false := by
        unfold hasChar
        rw [List.any_eq_false]
        intro c hc
        rcases h c hc with hc' | hc'
        · simp [isWS_ne_comma hc']
        · subst hc'; decide
      by_cases hq : hasChar '"' s.data = true
      · simp only [he, ite_false, hcm, hq, Bool.not_true, Bool.not_false,
          Bool.true_and, Bool.false_eq_true, if_false]
        rcases hres : scanChars s.data false [] [] [] false with ⟨words, rest⟩
        rcases rest with ⟨tbs, slc⟩
        have hinv := scan_wsq s.data false [] [] h
          (by intro x hx; simp at hx) (by intro t ht; simp at ht)
        rw [hres] at hinv
        rcases hinv with ⟨hw, htbs, hslc⟩
        simp only at hw htbs hslc
        unfold scanWords
        rw [hres, hw, hslc]
        have hfm : tbs.flatMap (split_strip ' ') = [] := by
          rw [List.eq_nil_iff_forall_not_mem]
          intro x hx
          rcases List.mem_flatMap.mp hx with ⟨t, ht, hxt⟩
          rw [split_strip_eq_nil (fun c hc => Or.inl (htbs t ht c hc))] at hxt
          simp at hxt
        simp only [Bool.false_eq_true, if_false, List.nil_append, hfm]
        exact finalize_nil
      · have hq' : hasChar '"' s.data = false := by simpa using hq
        have hws : ∀ c ∈ s.data, isWS c = true := by
          intro c hc
          rcases h c hc with hc' | hc'
          · exact hc'
          · exfalso
            apply hq
            unfold hasChar
            rw [List.any_eq_true]
            exact ⟨c, hc, by simp [hc']⟩
        simp only [he, ite_false, hcm, hq', Bool.not_false, Bool.true_and,
          if_true, Bool.false_eq_true]
        rw [split_strip_eq_nil (fun c hc => Or.inl (hws c hc))]
        exact finalize_nil
  show (parseCore s.data).map String.mk = []
  rw [hcore]
  rfl

/-- C7 (amended): the parser is total (never raises); an absent value, the
empty string, an input of whitespace and commas only, and an input of
whitespace and double quotes only all yield an empty sequence. (Commas
enclosed in double quotes are instead preserved as tag content, see the
counterexample.) -/
theorem parse_degrades_to_empty :
    parse_tag_input none = [] ∧ parse_tag_input (some "") = [] ∧
    (∀ s : String, (∀ c ∈ s.data, isWS c = true ∨ c = ',') →
      parse_tag_input (some s) = []) ∧
    (∀ s : String, (∀ c ∈ s.data, isWS c = true ∨ c = '"') →
      parse_tag_input (some s) = []) :=
  ⟨rfl, by decide, parse_ws_comma, parse_ws_quote⟩

/-- C7 counterexample: the input consisting of a quote, a comma and a
quote uses only comma/quote characters, yet parses to the one-element
list containing a comma, not to the empty sequence. -/
theorem parse_quote_comma_not_empty :
    (∀ c ∈ ("\",\"" : String).data, c = ',' ∨ c = '"') ∧
    parse_tag_input (some "\",\"") = [","] ∧
    parse_tag_input (some "\",\"") ≠ [] := by
  refine ⟨by decide, by decide, by decide⟩

theorem parse_degrades_to_empty_witness :
    parse_tag_input (some " ,, ") = [] ∧
    parse_tag_input (some " \" \" ") = [] := by
  constructor
  · exact parse_degrades_to_empty.2.2.1 " ,, " (by decide)
  · exact parse_degrades_to_empty.2.2.2 " \" \" " (by decide)

/-! ### Round-trip lemmas for re-serialized tag lists -/

theorem data_append : ∀ a b : String, (a ++ b).data = a.data ++ b.data
  | ⟨_⟩, ⟨_⟩ => rfl

theorem joinSpace_data :
    ∀ ws : List String, (joinSpace ws).data = charsJoin (ws.map String.data)
  | [] => by decide
  | [w] => rfl
  | w :: w' :: ws => by
    show (w ++ " " ++ joinSpace (w' :: ws)).data = _
    rw [data_append, data_append, joinSpace_data (w' :: ws)]
    show w.data ++ [' '] ++ _ = charsJoin (w.data :: (w' :: ws).map String.data)
    rw [List.map_cons]
    show _ = w.data ++ ' ' :: charsJoin (w'.data :: ws.map String.data)
    rw [List.append_assoc]
    rfl

theorem mem_charsJoin :
    ∀ {ws : List (List Char)} {c : Char}, c ∈ charsJoin ws →
      c = ' ' ∨ ∃ w ∈ ws, c ∈ w
  | [], c => by intro h; simp [charsJoin] at h
  | [w], c => by
    intro h
    exact Or.inr ⟨w, List.mem_singleton_self w, h⟩
  | w :: w' :: ws, c => by
    intro h
    show c = ' ' ∨ ∃ x ∈ w :: w' :: ws, c ∈ x
    have h' : c ∈ w ++ ' ' :: charsJoin (w' :: ws) := h
    rcases List.mem_append.mp h' with h1 | h1
    · exact Or.inr ⟨w, List.mem_cons_self _ _, h1⟩
    · rcases List.mem_cons.mp h1 with h2 | h2
      · exact Or.inl h2
      · rcases mem_charsJoin h2 with h3 | ⟨x, hx, hcx⟩
        · exact Or.inl h3
        · exact Or.inr ⟨x, List.mem_cons_of_mem _ hx, hcx⟩

theorem pySplit_no_delim {d : Char} :
    ∀ {w : List Char}, (∀ c ∈ w, (c == d) = false) → pySplit d w = [w]
  | [] => fun _ => rfl
  | c :: rest => by
    intro h
    have hc : (c == d) = false := h c (List.mem_cons_self _ _)
    have hr : pySplit d rest = [rest] :=
      pySplit_no_delim (fun x hx => h x (List.mem_cons_of_mem _ hx))
    simp [pySplit, hc, hr]

theorem pySplit_append_delim {d : Char} :
    ∀ {w : List Char} (l : List Char), (∀ c ∈ w, (c == d) = false) →
      pySplit d (w ++ d :: l) = w :: pySplit d l
  | [], l => by
    intro _
    simp [pySplit]
  | c :: rest, l => by
    intro h
    have hc : (c == d) = false := h c (List.mem_cons_self _ _)
    have hr := pySplit_append_delim (w := rest) l
      (fun x hx => h x (List.mem_cons_of_mem _ hx))
    simp [pySplit, hc, hr]

theorem pySplit_charsJoin :
    ∀ {ws : List (List Char)}, (∀ w ∈ ws, ∀ c ∈ w, (c == ' ') = false) →
      ws ≠ [] → pySplit ' ' (charsJoin ws) = ws
  | [] => by intro _ h; exact absurd rfl h
  | [w] => by
    intro h _
    exact pySplit_no_delim (h w (List.mem_singleton_self w))
  | w :: w' :: ws => by
    intro h _
    show pySplit ' ' (w ++ ' ' :: charsJoin (w' :: ws)) = _
    rw [pySplit_append_delim _ (h w (List.mem_cons_self _ _))]
    rw [pySplit_charsJoin (fun x hx => h x (List.mem_cons_of_mem _ hx))
      (by simp)]

theorem dropWhile_ws_id {l : List Char} (h : ∀ c ∈ l, isWS c = false) :
    l.dropWhile isWS = l := by
  cases l with
  | nil => rfl
  | cons c rest =>
    rw [List.dropWhile_cons]
    simp [h c (List.mem_cons_self _ _)]

theorem pyStrip_id {w : List Char} (h : ∀ c ∈ w, isWS c = false) :
    pyStrip w = w := by
  unfold pyStrip
  rw [dropWhile_ws_id h]
  rw [dropWhile_ws_id (fun c hc => h c (List.mem_reverse.mp hc))]
  exact List.reverse_reverse w

theorem split_strip_charsJoin {ws : List (List Char)}
    (hnn : ∀ w ∈ ws, w ≠ [])
    (hch : ∀ w ∈ ws, ∀ c ∈ w, isWS c = false)
    (hne : ws ≠ []) :
    split_strip ' ' (charsJoin ws) = ws := by
  unfold split_strip
  have hsp : pySplit ' ' (charsJoin ws) = ws := by
    apply pySplit_charsJoin _ hne
    intro w hw c hc
    have : isWS c = false := hch w hw c hc
    by_cases hcs : c = ' '
    · subst hcs; simp [isWS] at this
    · simpa using hcs
  rw [hsp]
  have hmap : ws.map pyStrip = ws := by
    conv_rhs => rw [← List.map_id ws]
    exact List.map_congr_left (fun w hw => pyStrip_id (hch w hw))
  rw [hmap]
  rw [List.filter_eq_self]
  intro w hw
  have := hnn w hw
  cases w with
  | nil => exact absurd rfl this
  | cons c rest => simp

theorem scan_words_ne_nil :
    ∀ (cs : List Char) (q : Bool) (buf : List Char)
      (words tbs : List (List Char)) (slc : Bool),
    (∀ w ∈ words, w ≠ []) →
    ∀ w ∈ (scanChars cs q buf words tbs slc).1, w ≠ [] := by
  intro cs
  induction cs with
  | nil =>
    intro q buf words tbs slc hwords w hw
    revert hw
    cases q <;> simp only [scanChars] <;> split_ifs <;>
      (intro hw; exact hwords w hw)
  | cons c rest ih =>
    intro q buf words tbs slc hwords w hw
    revert hw
    cases q with
    | true =>
      by_cases hq : (c == '"') = true
      · simp only [scanChars, hq, if_true, ite_true]
        intro hw
        refine ih false [] _ tbs slc ?_ w hw
        by_cases hbe : (pyStrip buf).isEmpty
        · simpa [hbe] using hwords
        · simp only [hbe, ite_false, Bool.false_eq_true]
          intro x hx
          rcases List.mem_append.mp hx with hx | hx
          · exact hwords x hx
          · simp only [List.mem_singleton] at hx
            subst hx
            intro hnil
            rw [hnil] at hbe
            simp at hbe
      · simp only [scanChars, hq, Bool.false_eq_true, if_false, ite_false]
        intro hw
        exact ih true (buf ++ [c]) words tbs slc hwords w hw
    | false =>
      by_cases hq : (c == '"') = true
      · simp only [scanChars, hq, if_true, ite_true, Bool.false_eq_true]
        intro hw
        exact ih true [] words _ slc hwords w hw
      · simp only [scanChars, hq, Bool.false_eq_true, if_false, ite_false]
        intro hw
        exact ih false (buf ++ [c]) words tbs _ hwords w hw

theorem mem_split_strip_ne_nil {d : Char} {l w : List Char}
    (h : w ∈ split_strip d l) : w ≠ [] := by
  have h2 := (List.mem_filter.mp h).2
  intro hw
  subst hw
  simp at h2

theorem parseCore_words_ne_nil {l : List Char} :
    ∀ w ∈ parseCore l, w ≠ [] := by
  intro w hw
  unfold parseCore at hw
  split_ifs at hw with h1 h2
  · simp at hw
  · exact mem_split_strip_ne_nil (mem_finalize.mp hw)
  · have hw' := mem_finalize.mp hw
    unfold scanWords at hw'
    rcases hres : scanChars l false [] [] [] false with ⟨words, rest⟩
    rcases rest with ⟨tbs, slc⟩
    rw [hres] at hw'
    rcases List.mem_append.mp hw' with h | h
    · refine scan_words_ne_nil l false [] [] [] false (by simp) w ?_
      rw [hres]
      exact h
    · rcases List.mem_flatMap.mp h with ⟨t, _, hwt⟩
      exact mem_split_strip_ne_nil hwt

theorem finalize_eq_self {ws : List (List Char)} (hnd : ws.Nodup)
    (hs : List.Sorted wordLe ws) : finalize ws = ws := by
  unfold finalize
  rw [List.dedup_eq_self.mpr hnd]
  exact List.Sorted.insertionSort_eq hs

theorem charsJoin_ne_nil :
    ∀ {ws : List (List Char)}, ws ≠ [] → (∀ w ∈ ws, w ≠ []) →
      charsJoin ws ≠ []
  | [] => fun h _ => absurd rfl h
  | [w] => fun _ h => h w (List.mem_singleton_self w)
  | w :: w' :: ws => fun _ _ => by
    show w ++ ' ' :: charsJoin (w' :: ws) ≠ []
    simp

theorem parseCore_charsJoin {ws : List (List Char)}
    (hnn : ∀ w ∈ ws, w ≠ [])
    (hch : ∀ w ∈ ws, ∀ c ∈ w, isWS c = false ∧ c ≠ ',' ∧ c ≠ '"')
    (hne : ws ≠ []) (hnd : ws.Nodup) (hs : List.Sorted wordLe ws) :
    parseCore (charsJoin ws) = ws := by
  have hjne := charsJoin_ne_nil hne hnn
  have hempty : (charsJoin ws).isEmpty = false := by
    cases hj : charsJoin ws with
    | nil => exact absurd hj hjne
    | cons c rest => rfl
  have hcomma : hasChar ',' (charsJoin ws) = false := by
    unfold hasChar
    rw [List.any_eq_false]
    intro c hc
    rcases mem_charsJoin hc with h | ⟨w, hw, hcw⟩
    · subst h; decide
    · simp [(hch w hw c hcw).2.1]
  have hquote : hasChar '"' (charsJoin ws) = false := by
    unfold hasChar
    rw [List.any_eq_false]
    intro c hc
    rcases mem_charsJoin hc with h | ⟨w, hw, hcw⟩
    · subst h; decide
    · simp [(hch w hw c hcw).2.2]
  unfold parseCore
  simp only [hempty, hcomma, hquote, Bool.not_false, Bool.true_and,
    Bool.false_eq_true, ite_false, if_true]
  rw [split_strip_charsJoin hnn (fun w hw c hc => (hch w hw c hc).1) hne]
  exact finalize_eq_self hnd hs

/-- C8 (amended): parsing is idempotent through space-joined
re-serialization whenever every parsed tag is a single word free of
whitespace, commas and double quotes. -/
theorem parse_join_roundtrip (s : String)
    (h : ∀ w ∈ parse_tag_input (some s), ∀ c ∈ w.data,
      isWS c = false ∧ c ≠ ',' ∧ c ≠ '"') :
    parse_tag_input (some (joinSpace (parse_tag_input (some s)))) =
      parse_tag_input (some s) := by
  by_cases hws : parseCore s.data = []
  · have h1 : parse_tag_input (some s) = [] := by
      show (parseCore s.data).map String.mk = []
      rw [hws]
      rfl
    rw [h1]
    decide
  · have hch : ∀ w ∈ parseCore s.data, ∀ c ∈ w,
        isWS c = false ∧ c ≠ ',' ∧ c ≠ '"' := by
      intro w hw c hc
      exact h (String.mk w) (List.mem_map_of_mem _ hw) c hc
    have hdata : (joinSpace (parse_tag_input (some s))).data =
        charsJoin (parseCore s.data) := by
      show (joinSpace ((parseCore s.data).map String.mk)).data = _
      rw [joinSpace_data, List.map_map]
      congr 1
      conv_rhs => rw [← List.map_id (parseCore s.data)]
      exact List.map_congr_left (fun w _ => rfl)
    show (parseCore (joinSpace (parse_tag_input (some s))).data).map String.mk =
      parse_tag_input (some s)
    rw [hdata]
    rw [parseCore_charsJoin parseCore_words_ne_nil hch hws (nodup_parseCore _)
      (sorted_parseCore _)]
    rfl

/-- C8 counterexample: the input with a quoted tag containing a comma
parses to tags that are all single words (no whitespace in any tag), yet
re-parsing the space-joined result gives a different tag list, because the
embedded comma switches the re-parse to comma splitting. -/
theorem parse_join_not_idempotent :
    (∀ w ∈ parse_tag_input (some "one two \"thr,ee\""), ∀ c ∈ w.data,
      isWS c = false) ∧
    parse_tag_input (some (joinSpace
      (parse_tag_input (some "one two \"thr,ee\"")))) ≠
      parse_tag_input (some "one two \"thr,ee\"") := by
  constructor
  · decide
  · decide

theorem parse_join_roundtrip_witness :
    parse_tag_input (some (joinSpace (parse_tag_input (some "b a")))) =
      parse_tag_input (some "b a") :=
  parse_join_roundtrip "b a" (by decide)

/-! ### Matcher lemmas -/

theorem runItems_pure (g : TaggedItem → Bool) :
    ∀ l : List TaggedItem,
    runItems (fun it => .ok (g it)) l =
      .ok ((l.filter (fun it => it.object_id != 0 && g it)).map
        (fun it => it.object_id))
  | [] => rfl
  | it :: rest => by
    simp only [runItems, runItems_pure g rest, List.filter_cons]
    by_cases h1 : (it.object_id != 0) = true
    · by_cases h2 : g it = true
      · simp [h1, h2]
      · simp [h1, h2]
    · simp [h1]

theorem get_matching_ids_pure (pool : List TaggedItem)
    (g : TaggedItem → Bool) :
    ∀ tags : List Tag,
    get_matching_ids pool tags (fun it => .ok (g it)) =
      .ok (tags.flatMap (fun t =>
        ((itemsOfTag pool t.pk).filter (fun it =>
          it.object_id != 0 && g it)).map (fun it => it.object_id)))
  | [] => rfl
  | t :: ts => by
    simp only [get_matching_ids, runItems_pure, get_matching_ids_pure pool g ts,
      List.flatMap_cons]

theorem filterFunction_callable (ctype : Nat) (f : TaggedItem → Bool) :
    filterFunction ctype (some (.callable f)) =
      fun it => .ok (f it && (it.content_type == ctype)) := rfl

theorem filterFunction_none (ctype : Nat) :
    filterFunction ctype none =
      fun it => .ok (it.content_type == ctype) := rfl

theorem get_matching_ids_callable (ctype : Nat) (pool : List TaggedItem)
    (f : TaggedItem → Bool) (tags : List Tag) :
    get_matching_ids pool tags (filterFunction ctype (some (.callable f))) =
      .ok (idsFor ctype pool f tags) := by
  rw [filterFunction_callable]
  exact get_matching_ids_pure pool _ tags

theorem count_map_object_id (oid : Nat) :
    ∀ l : List TaggedItem,
    ((l.map (fun it => it.object_id)).count oid) =
      (l.filter (fun it => it.object_id == oid)).length
  | [] => rfl
  | it :: rest => by
    simp only [List.map_cons, List.count_cons, List.filter_cons,
      count_map_object_id oid rest]
    by_cases h : (it.object_id == oid) = true
    · simp [h]
    · simp [h]

theorem count_block (ctype : Nat) (f : TaggedItem → Bool) (oid tpk : Nat)
    (pool : List TaggedItem) :
    (((itemsOfTag pool tpk).filter (fun it =>
        it.object_id != 0 && (f it && (it.content_type == ctype)))).map
      (fun it => it.object_id)).count oid =
      (pool.filter (fun it =>
        (it.tag == tpk) && matchCond ctype f oid it)).length := by
  rw [count_map_object_id]
  unfold itemsOfTag
  rw [List.filter_filter, List.filter_filter]
  apply congrArg
  apply List.filter_congr
  intro it _
  simp only [matchCond]
  cases it.tag == tpk <;> cases it.object_id != 0 <;> cases f it <;>
    cases it.content_type == ctype <;> cases it.object_id == oid <;> rfl

theorem length_filter_or {α : Type} (p q r : α → Bool) :
    ∀ l : List α, (∀ x ∈ l, ¬(p x = true ∧ q x = true)) →
    (l.filter (fun x => (p x || q x) && r x)).length =
      (l.filter (fun x => p x && r x)).length +
      (l.filter (fun x => q x && r x)).length
  | [] => fun _ => rfl
  | x :: rest => by
    intro hdis
    have ih := length_filter_or p q r rest
      (fun y hy => hdis y (List.mem_cons_of_mem _ hy))
    simp only [List.filter_cons]
    cases h1 : p x <;> cases h2 : q x <;> cases h3 : r x
    all_goals (try exact absurd (And.intro h1 h2) (hdis x (List.mem_cons_self _ _)))
    all_goals (simp [h1, h2, h3, ih]; try omega)

theorem count_idsFor (ctype : Nat) (f : TaggedItem → Bool) (oid : Nat) :
    ∀ (tags : List Tag) (pool : List TaggedItem),
    ((tags.map (fun t => t.pk)).Nodup) →
    (idsFor ctype pool f tags).count oid =
      claimOccurrences ctype pool tags f oid
  | [], pool => by
    intro _
    simp [idsFor, claimOccurrences]
  | t :: ts, pool => by
    intro hnd
    rw [List.map_cons, List.nodup_cons] at hnd
    have h1 := hnd.1
    have h2 := hnd.2
    unfold idsFor
    rw [List.flatMap_cons, List.count_append, count_block]
    have ih := count_idsFor ctype f oid ts pool h2
    unfold idsFor at ih
    rw [ih]
    unfold claimOccurrences
    have hcong : pool.filter (fun it =>
        (((t :: ts).map (fun t => t.pk)).contains it.tag) &&
          matchCond ctype f oid it) =
      pool.filter (fun it =>
        ((it.tag == t.pk) || ((ts.map (fun t => t.pk)).contains it.tag)) &&
          matchCond ctype f oid it) := by
      apply List.filter_congr
      intro it _
      rw [List.map_cons, List.contains_cons]
    rw [hcong]
    rw [length_filter_or _ _ _ pool ?_]
    intro it _
    rintro ⟨ha, hb⟩
    have hm : it.tag ∈ ts.map (fun t => t.pk) := by simpa using hb
    rw [beq_iff_eq.mp ha] at hm
    exact h1 hm

theorem mem_unique_go :
    ∀ (l seen : List Nat) (x : Nat),
    x ∈ unique_from_iter.go l seen ↔ x ∈ l ∧ x ∉ seen
  | [], seen, x => by simp [unique_from_iter.go]
  | y :: ys, seen, x => by
    by_cases hy : y ∈ seen
    · have hstep : unique_from_iter.go (y :: ys) seen =
          unique_from_iter.go ys seen := by
        simp [unique_from_iter.go, hy]
      rw [hstep, mem_unique_go ys seen x]
      constructor
      · rintro ⟨hx, hs⟩
        exact ⟨List.mem_cons_of_mem _ hx, hs⟩
      · rintro ⟨hx, hs⟩
        rcases List.mem_cons.mp hx with rfl | hx
        · exact absurd hy hs
        · exact ⟨hx, hs⟩
    · have hstep : unique_from_iter.go (y :: ys) seen =
          y :: unique_from_iter.go ys (y :: seen) := by
        simp [unique_from_iter.go, hy]
      rw [hstep]
      constructor
      · intro hx
        rcases List.mem_cons.mp hx with rfl | hx
        · exact ⟨List.mem_cons_self _ _, hy⟩
        · have := (mem_unique_go ys (y :: seen) x).mp hx
          refine ⟨List.mem_cons_of_mem _ this.1, ?_⟩
          intro hs
          exact this.2 (List.mem_cons_of_mem _ hs)
      · rintro ⟨hx, hs⟩
        by_cases hxy : x = y
        · subst hxy
          exact List.mem_cons_self _ _
        · rcases List.mem_cons.mp hx with rfl | hx
          · exact absurd rfl hxy
          · refine List.mem_cons_of_mem _
              ((mem_unique_go ys (y :: seen) x).mpr ⟨hx, ?_⟩)
            intro hmem
            rcases List.mem_cons.mp hmem with rfl | hmem
            · exact hxy rfl
            · exact hs hmem

theorem mem_unique_from_iter {l : List Nat} {x : Nat} :
    x ∈ unique_from_iter l ↔ x ∈ l := by
  unfold unique_from_iter
  rw [mem_unique_go]
  simp

/-- C3 (amended): for a non-empty set of distinct tags and a callable
predicate, `match_all` succeeds and returns exactly the object ids whose
occurrence count — one occurrence per association whose tag is in the set,
whose object type matches, which satisfies the predicate, whose object id
is the given one and is non-zero — equals the number of tags. -/
theorem match_all_characterization (ctype : Nat) (pool : List TaggedItem)
    (tags : List Tag) (f : TaggedItem → Bool)
    (hne : tags ≠ []) (hnd : (tags.map (fun t => t.pk)).Nodup) :
    ∃ res, match_all ctype pool tags (some (.callable f)) = .ok res ∧
      ∀ oid : Nat,
        (oid ∈ res ↔ claimOccurrences ctype pool tags f oid = tags.length) := by
  have hgm := get_matching_ids_callable ctype pool f tags
  unfold match_all
  rw [hgm]
  refine ⟨_, rfl, ?_⟩
  intro oid
  rw [List.mem_filter]
  constructor
  · rintro ⟨hmem, hcnt⟩
    rw [← count_idsFor ctype f oid tags pool hnd]
    exact beq_iff_eq.mp hcnt
  · intro hocc
    have hcnt : (idsFor ctype pool f tags).count oid = tags.length := by
      rw [count_idsFor ctype f oid tags pool hnd]
      exact hocc
    have hpos : 0 < (idsFor ctype pool f tags).count oid := by
      rw [hcnt]
      cases tags with
      | nil => exact absurd rfl hne
      | cons t ts => simp
    have hmem : oid ∈ idsFor ctype pool f tags := by
      by_contra hno
      rw [List.count_eq_zero_of_not_mem hno] at hpos
      exact Nat.lt_irrefl 0 hpos
    exact ⟨mem_unique_from_iter.mpr hmem, by simp [hcnt]⟩

theorem match_all_characterization_witness :
    ∃ res, match_all 0
        [⟨1, 1, 0, 10, [], false⟩, ⟨2, 2, 0, 10, [], false⟩,
         ⟨3, 1, 0, 20, [], false⟩]
        [⟨1, "bar", []⟩, ⟨2, "zip", []⟩]
        (some (.callable (fun _ => true))) = .ok res ∧
      10 ∈ res ∧ 20 ∉ res := by
  obtain ⟨res, heq, hchar⟩ := match_all_characterization 0
    [⟨1, 1, 0, 10, [], false⟩, ⟨2, 2, 0, 10, [], false⟩,
     ⟨3, 1, 0, 20, [], false⟩]
    [⟨1, "bar", []⟩, ⟨2, "zip", []⟩] (fun _ => true)
    (by simp) (by decide)
  refine ⟨res, heq, (hchar 10).mpr (by decide), ?_⟩
  intro hmem
  have h2 := (hchar 20).mp hmem
  have h1 : claimOccurrences 0
      [⟨1, 1, 0, 10, [], false⟩, ⟨2, 2, 0, 10, [], false⟩,
       ⟨3, 1, 0, 20, [], false⟩]
      [⟨1, "bar", []⟩, ⟨2, "zip", []⟩] (fun _ => true) 20 = 1 := by decide
  rw [h1] at h2
  exact absurd h2 (by decide)

/-- C3 counterexample: an association with object id 0 satisfies the
claim's collection condition (tag in the set, matching type, predicate
holds), so the claim places object id 0 in the result; the code's
truthiness test on the object id skips it and returns the empty result. -/
theorem match_all_zero_object_id :
    ¬(∃ res, match_all 0 [⟨1, 1, 0, 0, [], false⟩] [⟨1, "t", []⟩]
        (some (PyPred.callable (fun _ => true))) = Except.ok res ∧
      ∀ oid : Nat, (oid ∈ res ↔
        (([⟨1, 1, 0, 0, [], false⟩] : List TaggedItem).filter (fun it =>
          (([⟨1, "t", []⟩] : List Tag).map (fun t => t.pk)).contains it.tag &&
          (it.content_type == 0) && (it.object_id == oid))).length =
        ([⟨1, "t", []⟩] : List Tag).length)) := by
  rintro ⟨res, heq, hchar⟩
  have hok : match_all 0 [⟨1, 1, 0, 0, [], false⟩] [⟨1, "t", []⟩]
      (some (PyPred.callable (fun _ => true))) = Except.ok [] := rfl
  rw [hok] at heq
  have hres : res = [] := (Except.ok.inj heq).symm
  have h0 := (hchar 0).mpr (by decide)
  rw [hres] at h0
  simp at h0

theorem match_all_empty_tags_aux (ctype : Nat) (pool : List TaggedItem)
    (userf : Option PyPred) : match_all ctype pool [] userf = .ok [] := by
  cases userf with
  | none => rfl
  | some p => cases p <;> rfl

theorem match_any_empty_tags_aux (ctype : Nat) (pool : List TaggedItem)
    (userf : Option PyPred) : match_any ctype pool [] userf = .ok [] := by
  cases userf with
  | none => rfl
  | some p => cases p <;> rfl

/-- C4: `match_all` on the empty tag set returns the empty result, for
every association pool (empty or not), every content type, and every
predicate value (even a non-callable one). -/
theorem match_all_empty_tagset (ctype : Nat) (pool : List TaggedItem)
    (userf : Option PyPred) : match_all ctype pool [] userf = .ok [] :=
  match_all_empty_tags_aux ctype pool userf

theorem runItems_err :
    ∀ l : List TaggedItem,
    runItems (fun _ => .error .typeError) l =
      if l.any (fun it => it.object_id != 0) then .error .typeError
      else .ok []
  | [] => rfl
  | it :: rest => by
    simp only [runItems, List.any_cons]
    by_cases h : (it.object_id != 0) = true
    · simp [h]
    · simp [h, runItems_err rest]

theorem filterFunction_notCallable (ctype : Nat) :
    filterFunction ctype (some .notCallable) =
      fun _ => .error .typeError := rfl

theorem get_matching_ids_err (pool : List TaggedItem) :
    ∀ tags : List Tag,
    get_matching_ids pool tags (fun _ => .error .typeError) =
      if tags.any (fun t =>
        (itemsOfTag pool t.pk).any (fun it => it.object_id != 0))
      then .error .typeError else .ok []
  | [] => rfl
  | t :: ts => by
    simp only [get_matching_ids, runItems_err, List.any_cons]
    by_cases h : ((itemsOfTag pool t.pk).any (fun it => it.object_id != 0)) = true
    · simp [h]
    · by_cases h2 : (ts.any (fun t =>
          (itemsOfTag pool t.pk).any (fun it => it.object_id != 0))) = true
      · simp [h, h2, get_matching_ids_err pool ts]
      · simp [h, h2, get_matching_ids_err pool ts]

theorem get_matching_ids_nil_pool (ff : TaggedItem → Except PyErr Bool) :
    ∀ tags : List Tag, get_matching_ids [] tags ff = .ok []
  | [] => rfl
  | t :: ts => by
    simp only [get_matching_ids, itemsOfTag, List.filter_nil, runItems,
      get_matching_ids_nil_pool ff ts]
    rfl

/-- C5 (amended): with a callable or absent predicate the matchers never
raise; a non-callable predicate raises a type error exactly when at least
one association (with non-zero object id, belonging to some given tag)
causes it to be applied — when no association is reached (in particular
with an empty tag set or an empty pool) the non-callable predicate goes
undetected and the result is the empty list. -/
theorem matcher_error_behavior (ctype : Nat) (pool : List TaggedItem)
    (tags : List Tag) :
    (∀ f : TaggedItem → Bool,
      match_any ctype pool tags (some (.callable f)) =
        .ok (unique_from_iter (idsFor ctype pool f tags)) ∧
      ∃ r, match_all ctype pool tags (some (.callable f)) = .ok r) ∧
    (∃ r1 r2, match_any ctype pool tags none = .ok r1 ∧
      match_all ctype pool tags none = .ok r2) ∧
    ((∃ t ∈ tags, ∃ it ∈ pool, it.tag = t.pk ∧ it.object_id ≠ 0) →
      match_any ctype pool tags (some .notCallable) = .error .typeError ∧
      match_all ctype pool tags (some .notCallable) = .error .typeError) ∧
    (¬(∃ t ∈ tags, ∃ it ∈ pool, it.tag = t.pk ∧ it.object_id ≠ 0) →
      match_any ctype pool tags (some .notCallable) = .ok [] ∧
      match_all ctype pool tags (some .notCallable) = .ok []) ∧
    (∀ userf, match_any ctype pool [] userf = .ok [] ∧
      match_all ctype pool [] userf = .ok []) ∧
    (∀ (userf : Option PyPred) (tags2 : List Tag),
      match_any ctype [] tags2 userf = .ok [] ∧
      match_all ctype [] tags2 userf = .ok []) := by
  refine ⟨?_, ?_, ?_, ?_, ?_, ?_⟩
  · intro f
    constructor
    · unfold match_any
      rw [get_matching_ids_callable]
    · refine ⟨(unique_from_iter (idsFor ctype pool f tags)).filter
        (fun id => (idsFor ctype pool f tags).count id == tags.length), ?_⟩
      unfold match_all
      rw [get_matching_ids_callable]
  · refine ⟨unique_from_iter (tags.flatMap (fun t =>
        ((itemsOfTag pool t.pk).filter (fun it =>
          it.object_id != 0 && (it.content_type == ctype))).map
          (fun it => it.object_id))),
      (unique_from_iter (tags.flatMap (fun t =>
        ((itemsOfTag pool t.pk).filter (fun it =>
          it.object_id != 0 && (it.content_type == ctype))).map
          (fun it => it.object_id)))).filter (fun id =>
        (tags.flatMap (fun t =>
          ((itemsOfTag pool t.pk).filter (fun it =>
            it.object_id != 0 && (it.content_type == ctype))).map
            (fun it => it.object_id))).count id == tags.length), ?_, ?_⟩
    · unfold match_any
      rw [filterFunction_none, get_matching_ids_pure]
    · unfold match_all
      rw [filterFunction_none, get_matching_ids_pure]
  · rintro ⟨t, ht, it, hit, htag, hoid⟩
    have hany : (tags.any (fun t =>
        (itemsOfTag pool t.pk).any (fun it => it.object_id != 0))) = true := by
      rw [List.any_eq_true]
      refine ⟨t, ht, ?_⟩
      rw [List.any_eq_true]
      refine ⟨it, ?_, by simpa using hoid⟩
      unfold itemsOfTag
      rw [List.mem_filter]
      exact ⟨hit, by simpa using htag⟩
    constructor
    · unfold match_any
      rw [filterFunction_notCallable, get_matching_ids_err, if_pos hany]
    · unfold match_all
      rw [filterFunction_notCallable, get_matching_ids_err, if_pos hany]
  · intro hnot
    have hany : (tags.any (fun t =>
        (itemsOfTag pool t.pk).any (fun it => it.object_id != 0))) = false := by
      rw [← Bool.not_eq_true]
      intro h
      apply hnot
      rcases List.any_eq_true.mp h with ⟨t, ht, hinner⟩
      rcases List.any_eq_true.mp hinner with ⟨it, hitmem, hoid⟩
      rcases List.mem_filter.mp hitmem with ⟨hitpool, htag⟩
      exact ⟨t, ht, it, hitpool, beq_iff_eq.mp htag, by simpa using hoid⟩
    constructor
    · unfold match_any
      rw [filterFunction_notCallable, get_matching_ids_err,
        if_neg (by simp [hany])]
      rfl
    · unfold match_all
      rw [filterFunction_notCallable, get_matching_ids_err,
        if_neg (by simp [hany])]
      rfl
  · intro userf
    exact ⟨match_any_empty_tags_aux ctype pool userf,
      match_all_empty_tags_aux ctype pool userf⟩
  · intro userf tags2
    constructor
    · unfold match_any
      rw [get_matching_ids_nil_pool]
      rfl
    · unfold match_all
      rw [get_matching_ids_nil_pool]
      rfl

/-- C5 counterexample: a non-callable predicate with an empty tag set and
a non-empty pool raises nothing: both matchers return the empty result
instead of an invalid-argument error, because the predicate is wrapped in
a callable lambda and is never applied. -/
theorem matcher_notcallable_silent :
    match_all 0 [⟨1, 1, 0, 5, [2], false⟩] [] (some PyPred.notCallable) =
      .ok [] ∧
    match_any 0 [⟨1, 1, 0, 5, [2], false⟩] [] (some PyPred.notCallable) =
      .ok [] ∧
    ∀ e : PyErr,
      match_all 0 [⟨1, 1, 0, 5, [2], false⟩] [] (some PyPred.notCallable) ≠
        .error e := by
  refine ⟨rfl, rfl, ?_⟩
  intro e h
  cases h

theorem matcher_error_behavior_witness :
    (match_any 0 [⟨1, 1, 0, 5, [2], false⟩] [⟨1, "t", []⟩]
      (some PyPred.notCallable) = .error .typeError ∧
    match_all 0 [⟨1, 1, 0, 5, [2], false⟩] [⟨1, "t", []⟩]
      (some PyPred.notCallable) = .error .typeError) ∧
    (match_any 0 [⟨1, 99, 0, 5, [], false⟩] [⟨1, "t", []⟩]
      (some PyPred.notCallable) = .ok [] ∧
    match_all 0 [⟨1, 99, 0, 5, [], false⟩] [⟨1, "t", []⟩]
      (some PyPred.notCallable) = .ok []) :=
  ⟨(matcher_error_behavior 0 [⟨1, 1, 0, 5, [2], false⟩]
      [⟨1, "t", []⟩]).2.2.1 ⟨⟨1, "t", []⟩, by simp, ⟨1, 1, 0, 5, [2], false⟩,
      by simp, rfl, by decide⟩,
    (matcher_error_behavior 0 [⟨1, 99, 0, 5, [], false⟩]
      [⟨1, "t", []⟩]).2.2.2.1 (by decide)⟩

/-! ### Popularity lemmas -/

/-- C1: applied to a pair with zero associations (here `(0, 1)`, while the
item table holds only an association of object id 5), the popularity
recomputation divides the total owner count by the zero association count
and raises a division error (modelled as `none`), instead of returning an
empty mapping and leaving state unchanged. -/
theorem refresh_popular_zero_divides :
    refresh_popular 0 0 1 ⟨[], [⟨1, 1, 0, 5, [3], false⟩], 2⟩ = none := rfl

theorem refresh_popular_eq (minOwners ctype oid : Nat) (db : DB)
    (hne : (pairItems ctype oid db).length ≠ 0) :
    refresh_popular minOwners ctype oid db =
      some { db with items := db.items.map (fun it =>
        if it.content_type == ctype && it.object_id == oid then
          { it with popular :=
              (popularPks minOwners ctype oid db).contains it.pk }
        else it) } := by
  unfold refresh_popular
  rw [if_neg hne]

/-- C2: after a successful popularity recomputation for a pair with at
least one association, with pairwise-distinct primary keys and
pairwise-distinct tags among the pair's associations, every association of
the pair is popular exactly when its owner count strictly exceeds the
average: the total owner-tag applications on the object divided by the
number of distinct tags on the object, floored at the configured minimum
threshold. -/
theorem refresh_popular_avg (minOwners ctype oid : Nat) (db : DB)
    (hne : pairItems ctype oid db ≠ [])
    (hpk : (db.items.map (fun it => it.pk)).Nodup)
    (htags : ((pairItems ctype oid db).map (fun it => it.tag)).Nodup) :
    ∃ db', refresh_popular minOwners ctype oid db = some db' ∧
      ∀ it ∈ db'.items, it.content_type = ctype → it.object_id = oid →
        (it.popular = true ↔
          it.owners.length >
            max (((pairItems ctype oid db).map
                (fun it => it.owners.length)).sum /
              ((pairItems ctype oid db).map (fun it => it.tag)).dedup.length)
              minOwners) := by
  have hlen : (pairItems ctype oid db).length ≠ 0 := by
    intro h
    exact hne (List.length_eq_zero.mp h)
  refine ⟨_, refresh_popular_eq minOwners ctype oid db hlen, ?_⟩
  intro it hit hct hoi
  rcases List.mem_map.mp hit with ⟨it0, hit0, hf⟩
  have hmatch : (it0.content_type == ctype && it0.object_id == oid) = true := by
    by_contra hc
    rw [if_neg (by simpa using hc)] at hf
    subst hf
    simp only [Bool.and_eq_true, beq_iff_eq] at hc
    exact hc ⟨hct, hoi⟩
  rw [if_pos hmatch] at hf
  subst hf
  simp only [Bool.and_eq_true, beq_iff_eq] at hmatch
  have hq0 : it0 ∈ pairItems ctype oid db := by
    unfold pairItems
    rw [List.mem_filter]
    exact ⟨hit0, by simp [hmatch.1, hmatch.2]⟩
  have havg : pairAvg minOwners ctype oid db =
      max (((pairItems ctype oid db).map (fun it => it.owners.length)).sum /
        ((pairItems ctype oid db).map (fun it => it.tag)).dedup.length)
        minOwners := by
    simp only [pairAvg]
    rw [List.dedup_eq_self.mpr htags, List.length_map]
    split_ifs with h <;> omega
  constructor
  · intro hpop
    have hmem : it0.pk ∈ popularPks minOwners ctype oid db := by
      simpa using hpop
    unfold popularPks at hmem
    rcases List.mem_map.mp hmem with ⟨x, hx, hxpk⟩
    rcases List.mem_filter.mp hx with ⟨hxq, hxgt⟩
    have hxdb : x ∈ db.items := by
      unfold pairItems at hxq
      exact (List.mem_filter.mp hxq).1
    have hx0 : x = it0 :=
      List.inj_on_of_nodup_map hpk hxdb hit0 hxpk
    subst hx0
    rw [← havg]
    exact Nat.lt_of_lt_of_le (by simpa using hxgt) (Nat.le_refl _)
  · intro hgt
    show (popularPks minOwners ctype oid db).contains it0.pk = true
    have hmem : it0.pk ∈ popularPks minOwners ctype oid db := by
      unfold popularPks
      rw [List.mem_map]
      refine ⟨it0, ?_, rfl⟩
      rw [List.mem_filter]
      refine ⟨hq0, ?_⟩
      rw [← havg] at hgt
      simpa using hgt
    simpa using hmem

theorem refresh_popular_avg_witness :
    ∃ db', refresh_popular 0 0 1
        ⟨[], [⟨1, 1, 0, 1, [11], false⟩, ⟨2, 2, 0, 1, [11], false⟩,
          ⟨3, 3, 0, 1, [11, 12, 13], false⟩,
          ⟨4, 4, 0, 1, [11, 12, 13], false⟩], 5⟩ = some db' ∧
      ∀ it ∈ db'.items, it.content_type = 0 → it.object_id = 1 →
        (it.popular = true ↔ it.owners.length > 2) := by
  obtain ⟨db', heq, hchar⟩ := refresh_popular_avg 0 0 1
    ⟨[], [⟨1, 1, 0, 1, [11], false⟩, ⟨2, 2, 0, 1, [11], false⟩,
      ⟨3, 3, 0, 1, [11, 12, 13], false⟩,
      ⟨4, 4, 0, 1, [11, 12, 13], false⟩], 5⟩
    (by decide) (by decide) (by decide)
  refine ⟨db', heq, ?_⟩
  intro it hit hct hoi
  have h2 := hchar it hit hct hoi
  have havg : max (((pairItems 0 1
      ⟨[], [⟨1, 1, 0, 1, [11], false⟩, ⟨2, 2, 0, 1, [11], false⟩,
        ⟨3, 3, 0, 1, [11, 12, 13], false⟩,
        ⟨4, 4, 0, 1, [11, 12, 13], false⟩], 5⟩).map
        (fun it => it.owners.length)).sum /
      ((pairItems 0 1
      ⟨[], [⟨1, 1, 0, 1, [11], false⟩, ⟨2, 2, 0, 1, [11], false⟩,
        ⟨3, 3, 0, 1, [11, 12, 13], false⟩,
        ⟨4, 4, 0, 1, [11, 12, 13], false⟩], 5⟩).map
        (fun it => it.tag)).dedup.length) 0 = 2 := by decide
  rw [havg] at h2
  exact h2

/-- C10: a successful popularity recomputation for one
`(content_type, object_id)` pair leaves the tag table unchanged, preserves
the number of associations, and leaves every association of a different
pair in the table unchanged (all fields, including `popular`). -/
theorem refresh_popular_frame (minOwners ctype oid : Nat) (db db' : DB)
    (h : refresh_popular minOwners ctype oid db = some db') :
    db'.tags = db.tags ∧ db'.items.length = db.items.length ∧
    ∀ it ∈ db.items, ¬(it.content_type = ctype ∧ it.object_id = oid) →
      it ∈ db'.items := by
  unfold refresh_popular at h
  split_ifs at h with hz
  have hdb' := (Option.some.inj h).symm
  subst hdb'
  refine ⟨rfl, by simp, ?_⟩
  intro it hit hnot
  have hcond : (it.content_type == ctype && it.object_id == oid) = false := by
    rw [← Bool.not_eq_true]
    intro hc
    simp only [Bool.and_eq_true, beq_iff_eq] at hc
    exact hnot hc
  show it ∈ db.items.map (fun it =>
    if (it.content_type == ctype && it.object_id == oid) = true then
      { it with popular := (popularPks minOwners ctype oid db).contains it.pk }
    else it)
  rw [List.mem_map]
  exact ⟨it, hit, by rw [if_neg (by simp [hcond])]⟩

theorem refresh_popular_frame_witness :
    refresh_popular 0 0 1
      ⟨[], [⟨1, 1, 0, 1, [5], false⟩, ⟨2, 2, 3, 7, [6], true⟩], 3⟩ =
      some ⟨[], [⟨1, 1, 0, 1, [5], false⟩, ⟨2, 2, 3, 7, [6], true⟩], 3⟩ ∧
    (⟨2, 2, 3, 7, [6], true⟩ : TaggedItem) ∈
      (⟨[], [⟨1, 1, 0, 1, [5], false⟩, ⟨2, 2, 3, 7, [6], true⟩],
        3⟩ : DB).items := by
  have h := refresh_popular_frame 0 0 1
    ⟨[], [⟨1, 1, 0, 1, [5], false⟩, ⟨2, 2, 3, 7, [6], true⟩], 3⟩
    ⟨[], [⟨1, 1, 0, 1, [5], false⟩, ⟨2, 2, 3, 7, [6], true⟩], 3⟩ (by decide)
  exact ⟨by decide, h.2.2 _ (by decide) (by decide)⟩

/-! ### Tag-update lemmas -/

/-- C9: evaluating `update_tags` at a state where owner 7 owns tag 1
("foo") on two objects (10 and 20) and removes it from object 10 only:
the owner-count check compares `object_id` with the tag's primary key
(no item has object id 1), finds at most one, and strips owner 7 from the
tag's owner set even though the association of object 20 with tag 1 still
carries owner 7 — violating the invariant that an owner is removed from a
tag's owner set only when their last association-ownership of that tag
(across all objects) is removed. -/
theorem update_tags_tag_owner_bug :
    ∃ db', update_tags 0 false 0 10 none 7
        ⟨[⟨1, "foo", [7]⟩],
         [⟨2, 1, 0, 10, [7], false⟩, ⟨3, 1, 0, 20, [7], false⟩], 4⟩ =
        some db' ∧
      (∃ it ∈ db'.items, it.tag = 1 ∧ 7 ∈ it.owners) ∧
      ∀ t ∈ db'.tags, t.pk = 1 → 7 ∉ t.owners :=
  ⟨⟨[⟨1, "foo", []⟩], [⟨3, 1, 0, 20, [7], false⟩], 4⟩,
    by decide, by decide, by decide⟩
